import Mathlib

/- Verification development for the inverted-index builder and query engine
   (boyanxu/Inverted-Index).  The accumulator and on-disk spill/lexicon code is
   embedded from src/disk_io.rs; the external merge engine and the query
   processor live in modules that are not among the available sources, so they
   are modelled from the specification where noted. -/

/-- Boolean test that the pattern character list occurs at the head of the
haystack character list. -/
def leadsWith : List Char → List Char → Bool
  | [], _ => true
  | _ :: _, [] => false
  | a :: as, b :: bs => a == b && leadsWith as bs

/-- Boolean substring test on character lists: the pattern occurs somewhere in
the haystack. -/
def containsSeq (pat : List Char) : List Char → Bool
  | [] => leadsWith pat []
  | c :: rest => leadsWith pat (c :: rest) || containsSeq pat rest

/-- Model of Rust `line.contains("</DOC>")` used in `process_gzip_file`
(src/disk_io.rs line 29). -/
def containsDocEnd (line : String) : Bool :=
  containsSeq "</DOC>".toList line.toList

/-- Model of `current_doc.join("\n")` (src/disk_io.rs lines 30, 50). -/
def joinLines (lines : List String) : String :=
  String.intercalate "\n" lines

/-- State of `process_gzip_file`'s scan loop together with the indexer's
postings accumulator.  The indexer itself lives in the missing `indexer.rs`;
modelled from the spec: `add(document)` folds one document into the in-memory
map and `flush()` writes the accumulated batch to a new spill file and clears
the in-memory state.  We track each processed document by its full text:
`pending` is the list of documents indexed since the last dump, and each
element of `spills` records the documents covered by one spill file. -/
structure AccState where
  currentDoc : List String
  docCount : Nat
  pending : List String
  spills : List (List String)
deriving Repr, DecidableEq

/-- Body of the `for line in reader.lines()` loop of `process_gzip_file`
(src/disk_io.rs lines 25-41): push the line onto `current_doc`; when the line
contains `"</DOC>"`, index the joined document, bump `doc_count`, and dump the
accumulated postings to disk when `doc_count % BATCH_SIZE == 0`. -/
def accStep (batchSize : Nat) (st : AccState) (line : String) : AccState :=
  let cd := st.currentDoc ++ [line]
  if containsDocEnd line then
    let pending := st.pending ++ [joinLines cd]
    let dc := st.docCount + 1
    if dc % batchSize == 0 then
      { currentDoc := [], docCount := dc, pending := [], spills := st.spills ++ [pending] }
    else
      { currentDoc := [], docCount := dc, pending := pending, spills := st.spills }
  else
    { st with currentDoc := cd }

/-- The scan loop of `process_gzip_file` (src/disk_io.rs lines 25-46),
including the debug-mode early break (lines 43-45). -/
def accLoop (batchSize : Nat) (debugMode : Bool) (debugLimit : Nat) :
    AccState → List String → AccState
  | st, [] => st
  | st, l :: ls =>
    let st1 := accStep batchSize st l
    if debugMode && decide (debugLimit < st1.docCount) then st1
    else accLoop batchSize debugMode debugLimit st1 ls

/-- The epilogue of `process_gzip_file` (src/disk_io.rs lines 48-53): only when
`current_doc` is non-empty are the trailing lines indexed as one more document
and the remaining postings dumped to disk. -/
def accFinalize (st : AccState) : AccState :=
  if st.currentDoc.isEmpty then st
  else
    { currentDoc := st.currentDoc, docCount := st.docCount,
      pending := [],
      spills := st.spills ++ [st.pending ++ [joinLines st.currentDoc]] }

/-- Embedding of `process_gzip_file` (src/disk_io.rs lines 18-59), abstracted
over the decompressed line stream; `BATCH_SIZE`, `DEBUG_MODE` and
`DEBUG_DOC_LIMIT` come from the missing `utils.rs` and are parameters. -/
def process_gzip_file (batchSize : Nat) (debugMode : Bool) (debugLimit : Nat)
    (lines : List String) : AccState :=
  accFinalize (accLoop batchSize debugMode debugLimit ⟨[], 0, [], []⟩ lines)

/-- The documents delimited by terminator lines in a line stream, each as its
joined text, starting from a partially accumulated current document. -/
def docsTerminated (currentDoc : List String) : List String → List String
  | [] => []
  | l :: ls =>
    if containsDocEnd l then joinLines (currentDoc ++ [l]) :: docsTerminated [] ls
    else docsTerminated (currentDoc ++ [l]) ls

/-- The lines of a stream after its last terminator line, starting from a
partially accumulated current document. -/
def trailingLines (currentDoc : List String) : List String → List String
  | [] => currentDoc
  | l :: ls =>
    if containsDocEnd l then trailingLines [] ls
    else trailingLines (currentDoc ++ [l]) ls

lemma accLoop_nil (b : Nat) (d : Bool) (lim : Nat) (st : AccState) :
    accLoop b d lim st [] = st := rfl

lemma accLoop_cons_false (b lim : Nat) (st : AccState) (l : String) (ls : List String) :
    accLoop b false lim st (l :: ls) = accLoop b false lim (accStep b st l) ls := by
  simp [accLoop]

lemma accLoop_currentDoc (b lim : Nat) :
    ∀ (ls : List String) (st : AccState),
      (accLoop b false lim st ls).currentDoc = trailingLines st.currentDoc ls := by
  intro ls
  induction ls with
  | nil => intro st; rfl
  | cons l ls ih =>
    intro st
    rw [accLoop_cons_false, ih]
    by_cases h : containsDocEnd l
    · by_cases hb : (st.docCount + 1) % b == 0
      · simp [accStep, trailingLines, h, hb]
      · simp [accStep, trailingLines, h, hb]
    · simp [accStep, trailingLines, h]

lemma accLoop_spills_pending (b lim : Nat) :
    ∀ (ls : List String) (st : AccState),
      (accLoop b false lim st ls).spills.flatten ++ (accLoop b false lim st ls).pending =
        st.spills.flatten ++ st.pending ++ docsTerminated st.currentDoc ls := by
  intro ls
  induction ls with
  | nil => intro st; simp [accLoop_nil, docsTerminated]
  | cons l ls ih =>
    intro st
    rw [accLoop_cons_false, ih]
    by_cases h : containsDocEnd l
    · by_cases hb : (st.docCount + 1) % b == 0
      · simp [accStep, docsTerminated, h, hb]
      · simp [accStep, docsTerminated, h, hb]
    · simp [accStep, docsTerminated, h]

/-- C10: when the final lines of the input stream are not terminated by a line
containing "</DOC>", `process_gzip_file` still treats those trailing lines as
one additional document: after the run every indexed document has been
flushed (nothing is left pending), and the flushed spill files cover exactly
the terminated documents followed by the trailing document. -/
theorem c10_trailing_doc_flushed (b lim : Nat) (lines : List String)
    (h : trailingLines [] lines ≠ []) :
    (process_gzip_file b false lim lines).pending = [] ∧
    (process_gzip_file b false lim lines).spills.flatten =
      docsTerminated [] lines ++ [joinLines (trailingLines [] lines)] := by
  have hcd : (accLoop b false lim ⟨[], 0, [], []⟩ lines).currentDoc = trailingLines [] lines :=
    accLoop_currentDoc b lim lines ⟨[], 0, [], []⟩
  have hsp : (accLoop b false lim ⟨[], 0, [], []⟩ lines).spills.flatten ++
      (accLoop b false lim ⟨[], 0, [], []⟩ lines).pending = docsTerminated [] lines :=
    accLoop_spills_pending b lim lines ⟨[], 0, [], []⟩
  have hne : (accLoop b false lim ⟨[], 0, [], []⟩ lines).currentDoc.isEmpty = false := by
    rw [hcd]
    cases h' : trailingLines [] lines with
    | nil => exact absurd h' h
    | cons a as => rfl
  constructor
  · simp [process_gzip_file, accFinalize, hne]
  · simp only [process_gzip_file, accFinalize, hne, Bool.false_eq_true, if_false]
    rw [List.flatten_append, hcd]
    simp only [List.flatten_cons, List.flatten_nil, List.append_nil, ← List.append_assoc]
    rw [hsp]

theorem c10_trailing_doc_flushed_witness :
    trailingLines [] ["<DOC>", "a", "</DOC>", "trailing text"] ≠ [] ∧
    ((process_gzip_file 2 false 0 ["<DOC>", "a", "</DOC>", "trailing text"]).pending = [] ∧
     (process_gzip_file 2 false 0 ["<DOC>", "a", "</DOC>", "trailing text"]).spills.flatten =
       docsTerminated [] ["<DOC>", "a", "</DOC>", "trailing text"] ++
         [joinLines (trailingLines [] ["<DOC>", "a", "</DOC>", "trailing text"])]) :=
  ⟨by decide, c10_trailing_doc_flushed 2 0 ["<DOC>", "a", "</DOC>", "trailing text"] (by decide)⟩

/-- Iteration view of the accumulator's `HashMap<u32, HashMap<usize, u32>>`:
an association list from token id to a postings sublist, the sublist itself
being the iteration view of the inner `HashMap<usize, u32>` from document id
to term frequency.  Rust hash maps iterate in an unspecified, seed-dependent
order, so the iteration order is part of the input of the embedded
functions. -/
abbrev PostingsMap := List (Nat × List (Nat × Nat))

/-- Key order used by `sorted_postings.sort_by_key(|&(token_id, _)| *token_id)`
(src/disk_io.rs line 66). -/
def tokenIdLe (a b : Nat × List (Nat × Nat)) : Prop := a.1 ≤ b.1

instance : DecidableRel tokenIdLe := fun a b => Nat.decLe a.1 b.1

instance : IsTotal (Nat × List (Nat × Nat)) tokenIdLe := ⟨fun a b => Nat.le_total a.1 b.1⟩

instance : IsTrans (Nat × List (Nat × Nat)) tokenIdLe := ⟨fun _ _ _ h1 h2 => Nat.le_trans h1 h2⟩

/-- Embedding of `write_to_disk` (src/disk_io.rs lines 61-100): collect the
map's entries in iteration order and sort them by token id (Rust's
`sort_by_key` is a stable sort, modelled by the stable `insertionSort`); the
resulting sorted sequence is exactly what bincode serializes to the newly
created spill file, each inner sublist in its own iteration order. -/
def write_to_disk (postings : PostingsMap) : PostingsMap :=
  List.insertionSort tokenIdLe postings

lemma write_to_disk_perm (postings : PostingsMap) : (write_to_disk postings).Perm postings :=
  List.perm_insertionSort tokenIdLe postings

lemma write_to_disk_sorted_le (postings : PostingsMap) :
    List.Sorted tokenIdLe (write_to_disk postings) :=
  List.sorted_insertionSort tokenIdLe postings

/-- C4: `write_to_disk` serializes the in-memory postings map as the sequence
of its (token id, postings-sublist) entries sorted in ascending token-id
order: the serialized sequence is a permutation of the map's entries, and
since a map's keys are distinct, its token ids are strictly ascending. -/
theorem c4_write_to_disk_token_sorted (postings : PostingsMap)
    (hkeys : (postings.map Prod.fst).Nodup) :
    (write_to_disk postings).Perm postings ∧
    ((write_to_disk postings).map Prod.fst).Sorted (· < ·) := by
  refine ⟨write_to_disk_perm postings, ?_⟩
  have hle : ((write_to_disk postings).map Prod.fst).Sorted (· ≤ ·) := by
    rw [List.Sorted, List.pairwise_map]
    exact write_to_disk_sorted_le postings
  have hnd : ((write_to_disk postings).map Prod.fst).Nodup :=
    (((write_to_disk_perm postings).map Prod.fst).nodup_iff).mpr hkeys
  exact hle.lt_of_le hnd

theorem c4_write_to_disk_token_sorted_witness :
    ((([(7, [(0, 2)]), (3, [(0, 1), (1, 4)]), (5, [(1, 1)])] : PostingsMap).map Prod.fst).Nodup) ∧
    ((write_to_disk [(7, [(0, 2)]), (3, [(0, 1), (1, 4)]), (5, [(1, 1)])]).Perm
        [(7, [(0, 2)]), (3, [(0, 1), (1, 4)]), (5, [(1, 1)])] ∧
      ((write_to_disk [(7, [(0, 2)]), (3, [(0, 1), (1, 4)]), (5, [(1, 1)])]).map
          Prod.fst).Sorted (· < ·)) :=
  ⟨by decide, c4_write_to_disk_token_sorted [(7, [(0, 2)]), (3, [(0, 1), (1, 4)]), (5, [(1, 1)])]
    (by decide)⟩

/-- Lexicographic order on character lists, comparing Unicode scalar values;
for UTF-8 encoded strings this coincides with Rust's byte-wise `Ord` on
`String`, which `sorted_terms.sort()` uses (src/disk_io.rs line 106). -/
def charsLe : List Char → List Char → Bool
  | [], _ => true
  | _ :: _, [] => false
  | a :: as, b :: bs => decide (a < b) || (a == b && charsLe as bs)

/-- Term order used when sorting the lexicon's terms. -/
def termLe (s t : String) : Prop := charsLe s.toList t.toList = true

instance : DecidableRel termLe := fun s t => instDecidableEqBool (charsLe s.toList t.toList) true

lemma charsLe_total : ∀ x y : List Char, charsLe x y = true ∨ charsLe y x = true := by
  intro x
  induction x with
  | nil => intro y; left; rfl
  | cons a as ih =>
    intro y
    cases y with
    | nil => right; rfl
    | cons b bs =>
      rcases lt_trichotomy a b with h | h | h
      · left; simp [charsLe, h]
      · subst h
        rcases ih bs with h' | h'
        · left; simp [charsLe, h']
        · right; simp [charsLe, h']
      · right; simp [charsLe, h]

lemma charsLe_trans : ∀ x y z : List Char,
    charsLe x y = true → charsLe y z = true → charsLe x z = true := by
  intro x
  induction x with
  | nil => intro y z _ _; rfl
  | cons a as ih =>
    intro y z hxy hyz
    cases y with
    | nil => simp [charsLe] at hxy
    | cons b bs =>
      cases z with
      | nil => simp [charsLe] at hyz
      | cons c cs =>
        simp only [charsLe, Bool.or_eq_true, Bool.and_eq_true, decide_eq_true_eq,
          beq_iff_eq] at hxy hyz ⊢
        rcases hxy with h1 | ⟨h1, h1'⟩
        · rcases hyz with h2 | ⟨h2, _⟩
          · exact Or.inl (lt_trans h1 h2)
          · exact Or.inl (h2 ▸ h1)
        · rcases hyz with h2 | ⟨h2, h2'⟩
          · exact Or.inl (h1 ▸ h2)
          · exact Or.inr ⟨h1.trans h2, ih bs cs h1' h2'⟩

lemma charsLe_antisymm : ∀ x y : List Char,
    charsLe x y = true → charsLe y x = true → x = y := by
  intro x
  induction x with
  | nil =>
    intro y _ hyx
    cases y with
    | nil => rfl
    | cons b bs => simp [charsLe] at hyx
  | cons a as ih =>
    intro y hxy hyx
    cases y with
    | nil => simp [charsLe] at hxy
    | cons b bs =>
      simp only [charsLe, Bool.or_eq_true, Bool.and_eq_true, decide_eq_true_eq,
        beq_iff_eq] at hxy hyx
      rcases hxy with h1 | ⟨h1, h1'⟩
      · rcases hyx with h2 | ⟨h2, _⟩
        · exact absurd h2 (lt_asymm h1)
        · exact absurd (h2 ▸ h1) (lt_irrefl a)
      · rcases hyx with h2 | ⟨_, h2'⟩
        · exact absurd (h1 ▸ h2) (lt_irrefl a)
        · exact h1 ▸ congrArg (List.cons a) (ih bs h1' h2')

instance : IsTotal String termLe := ⟨fun s t => charsLe_total s.toList t.toList⟩

instance : IsTrans String termLe :=
  ⟨fun s t u h1 h2 => charsLe_trans s.toList t.toList u.toList h1 h2⟩

instance : IsAntisymm String termLe :=
  ⟨fun s t h1 h2 => String.ext (charsLe_antisymm s.toList t.toList h1 h2)⟩

/-- A bidirectional `BiMap<String, u32>` in iteration order: an association
list of (term, token id) pairs; bijectivity is expressed as hypotheses that
both projections are duplicate-free. -/
abbrev Lexicon := List (String × Nat)

/-- Lookup of `a` in an association list succeeds with its value when the
keys are duplicate-free. -/
lemma lookup_eq_some_of_mem {α β : Type} [BEq α] [LawfulBEq α]
    {l : List (α × β)} {a : α} {b : β}
    (hnd : (l.map Prod.fst).Nodup) (hmem : (a, b) ∈ l) :
    List.lookup a l = some b := by
  induction l with
  | nil => cases hmem
  | cons p rest ih =>
    rcases List.mem_cons.mp hmem with h | h
    · subst h
      simp [List.lookup]
    · have hne : (a == p.1) = false := by
        rw [beq_eq_false_iff_ne]
        intro he
        have hm : a ∈ rest.map Prod.fst := List.mem_map.mpr ⟨(a, b), h, rfl⟩
        rw [List.map_cons] at hnd
        exact (List.nodup_cons.mp hnd).1 (he ▸ hm)
      have hrest : (rest.map Prod.fst).Nodup := (List.nodup_cons.mp (List.map_cons _ _ _ ▸ hnd)).2
      cases p with
      | mk k v =>
        simp only [List.lookup]
        rw [show (a == k) = false from hne]
        exact ih hrest h

/-- A successful association-list lookup yields a member. -/
lemma mem_of_lookup_eq_some {α β : Type} [BEq α] [LawfulBEq α]
    {l : List (α × β)} {a : α} {b : β} (h : List.lookup a l = some b) :
    (a, b) ∈ l := by
  induction l with
  | nil => simp [List.lookup] at h
  | cons p rest ih =>
    cases p with
    | mk k v =>
      by_cases hk : (a == k) = true
      · have hka : a = k := eq_of_beq hk
        simp only [List.lookup, hk, Option.some.injEq] at h
        subst hka
        subst h
        exact List.mem_cons_self _ _
      · simp only [Bool.not_eq_true] at hk
        simp only [List.lookup, hk] at h
        exact List.mem_cons_of_mem _ (ih h)

/-- Lookup in an association list with duplicate-free keys is invariant under
permutation of the list. -/
lemma lookup_perm {α β : Type} [BEq α] [LawfulBEq α] [DecidableEq α]
    {l₁ l₂ : List (α × β)} (hperm : l₁.Perm l₂)
    (hnd : (l₁.map Prod.fst).Nodup) (a : α) :
    List.lookup a l₁ = List.lookup a l₂ := by
  have hnd₂ : (l₂.map Prod.fst).Nodup := ((hperm.map Prod.fst).nodup_iff).mp hnd
  cases h1 : List.lookup a l₁ with
  | some b =>
    exact (lookup_eq_some_of_mem hnd₂ (hperm.mem_iff.mp (mem_of_lookup_eq_some h1))).symm
  | none =>
    cases h2 : List.lookup a l₂ with
    | none => rfl
    | some b =>
      have : (a, b) ∈ l₁ := hperm.mem_iff.mpr (mem_of_lookup_eq_some h2)
      rw [lookup_eq_some_of_mem hnd this] at h1
      cases h1

/-- Embedding of `write_lexicon_to_disk` (src/disk_io.rs lines 103-130):
collect the bimap's left values (terms) in iteration order, sort them
(Rust's stable `sort`, modelled by `insertionSort` under the byte-wise string
order), and pair each term with `get_by_left(term).unwrap()`; the unwrap never
fails because each sorted term is drawn from the map's own keys, and is
modelled by `Option.getD`.  The resulting `terms_with_ids` vector is what is
serialized to `data/lexicon.data`. -/
def write_lexicon_to_disk (lexicon : Lexicon) : Lexicon :=
  let sorted_terms := List.insertionSort termLe (lexicon.map Prod.fst)
  sorted_terms.map (fun term => (term, (List.lookup term lexicon).getD 0))

lemma write_lexicon_map_fst (lexicon : Lexicon) :
    (write_lexicon_to_disk lexicon).map Prod.fst =
      List.insertionSort termLe (lexicon.map Prod.fst) := by
  unfold write_lexicon_to_disk
  rw [List.map_map]
  exact List.map_id _

/-- C9: `write_lexicon_to_disk` persists the lexicon as a sequence of
(term, token id) pairs whose terms are strictly ascending in the byte-wise
string order, and the persisted sequence depends only on the set of entries
of the bimap, not on the iteration order in which they are presented. -/
theorem c9_lexicon_write_sorted_canonical (l₁ l₂ : Lexicon)
    (hperm : l₁.Perm l₂) (hnd : (l₁.map Prod.fst).Nodup) :
    ((write_lexicon_to_disk l₁).map Prod.fst).Pairwise (fun s t => termLe s t ∧ s ≠ t) ∧
    write_lexicon_to_disk l₁ = write_lexicon_to_disk l₂ := by
  have hsorted : List.Sorted termLe (List.insertionSort termLe (l₁.map Prod.fst)) :=
    List.sorted_insertionSort termLe (l₁.map Prod.fst)
  have hndterms : (List.insertionSort termLe (l₁.map Prod.fst)).Nodup :=
    ((List.perm_insertionSort termLe (l₁.map Prod.fst)).nodup_iff).mpr hnd
  constructor
  · rw [write_lexicon_map_fst]
    exact hsorted.and hndterms
  · have hterms : List.insertionSort termLe (l₁.map Prod.fst) =
        List.insertionSort termLe (l₂.map Prod.fst) := by
      apply List.eq_of_perm_of_sorted ?_ hsorted (List.sorted_insertionSort termLe _)
      exact ((List.perm_insertionSort termLe _).trans (hperm.map Prod.fst)).trans
        (List.perm_insertionSort termLe _).symm
    unfold write_lexicon_to_disk
    rw [hterms]
    exact List.map_congr_left fun t _ => by rw [lookup_perm hperm hnd t]

theorem c9_lexicon_write_sorted_canonical_witness :
    (([("b", 1), ("a", 0)] : Lexicon).Perm [("a", 0), ("b", 1)] ∧
      (([("b", 1), ("a", 0)] : Lexicon).map Prod.fst).Nodup) ∧
    (((write_lexicon_to_disk [("b", 1), ("a", 0)]).map Prod.fst).Pairwise
        (fun s t => termLe s t ∧ s ≠ t) ∧
      write_lexicon_to_disk [("b", 1), ("a", 0)] =
        write_lexicon_to_disk [("a", 0), ("b", 1)]) :=
  ⟨⟨by decide, by decide⟩,
    c9_lexicon_write_sorted_canonical [("b", 1), ("a", 0)] [("a", 0), ("b", 1)]
      (by decide) (by decide)⟩

/-- Insert semantics of the `bimap` crate backing `BiMap<String, u32>`:
inserting a (term, id) pair removes any existing pair sharing either the left
value or the right value, then appends the new pair; `FromIterator` for
`BiMap` folds this insert over the sequence, which is what
`terms_with_ids.into_iter().collect()` performs (src/disk_io.rs line 170). -/
def bimapInsert (m : Lexicon) (p : String × Nat) : Lexicon :=
  (m.filter fun q => !(q.1 == p.1) && !(q.2 == p.2)) ++ [p]

/-- Collecting a serialized sequence of (term, id) pairs into a bimap. -/
def bimapFromList (l : Lexicon) : Lexicon := l.foldl bimapInsert []

/-- Embedding of `load_lexicon_from_disk` (src/disk_io.rs lines 152-173),
pure content part: rebuild the bimap from the deserialized (term, id)
vector; the bincode byte codec is modelled as lossless, so the deserialized
vector is the one that was written. -/
def load_lexicon_from_disk (serialized : Lexicon) : Lexicon :=
  bimapFromList serialized

lemma bimapFromList_of_nodup : ∀ (l acc : Lexicon),
    (((acc ++ l).map Prod.fst).Nodup) → (((acc ++ l).map Prod.snd).Nodup) →
    List.foldl bimapInsert acc l = acc ++ l := by
  intro l
  induction l with
  | nil => intro acc _ _; simp
  | cons p rest ih =>
    intro acc h1 h2
    have hfst : ∀ q ∈ acc, q.1 ≠ p.1 := by
      intro q hq he
      rw [List.map_append, List.nodup_append] at h1
      exact h1.2.2 (List.mem_map.mpr ⟨q, hq, rfl⟩)
        (he ▸ List.mem_map.mpr ⟨p, List.mem_cons_self _ _, rfl⟩)
    have hsnd : ∀ q ∈ acc, q.2 ≠ p.2 := by
      intro q hq he
      rw [List.map_append, List.nodup_append] at h2
      exact h2.2.2 (List.mem_map.mpr ⟨q, hq, rfl⟩)
        (he ▸ List.mem_map.mpr ⟨p, List.mem_cons_self _ _, rfl⟩)
    have hfilter : (acc.filter fun q => !(q.1 == p.1) && !(q.2 == p.2)) = acc := by
      rw [List.filter_eq_self]
      intro q hq
      simp only [Bool.and_eq_true, Bool.not_eq_true', beq_eq_false_iff_ne]
      exact ⟨hfst q hq, hsnd q hq⟩
    have hre : (acc ++ [p]) ++ rest = acc ++ p :: rest := by
      rw [List.append_assoc]; rfl
    calc List.foldl bimapInsert acc (p :: rest)
        = List.foldl bimapInsert (bimapInsert acc p) rest := rfl
      _ = List.foldl bimapInsert (acc ++ [p]) rest := by rw [bimapInsert, hfilter]
      _ = (acc ++ [p]) ++ rest := ih (acc ++ [p]) (hre ▸ h1) (hre ▸ h2)
      _ = acc ++ p :: rest := hre

lemma write_lexicon_perm (lex : Lexicon) (hnd : (lex.map Prod.fst).Nodup) :
    (write_lexicon_to_disk lex).Perm lex := by
  have hpt : ∀ p ∈ lex, (p.1, (List.lookup p.1 lex).getD 0) = id p := by
    intro p hp
    have hsome : List.lookup p.1 lex = some p.2 :=
      lookup_eq_some_of_mem hnd (by rwa [Prod.mk.eta])
    rw [hsome, Option.getD_some, Prod.mk.eta]
    rfl
  have hmap : lex.map (fun p => (p.1, (List.lookup p.1 lex).getD 0)) = lex := by
    rw [List.map_congr_left hpt, List.map_id]
  have hperm2 : ((List.insertionSort termLe (lex.map Prod.fst)).map
        (fun term => (term, (List.lookup term lex).getD 0))).Perm
      ((lex.map Prod.fst).map (fun term => (term, (List.lookup term lex).getD 0))) :=
    (List.perm_insertionSort termLe (lex.map Prod.fst)).map _
  have hcomp : (lex.map Prod.fst).map (fun term => (term, (List.lookup term lex).getD 0)) =
      lex := by
    rw [List.map_map]
    exact hmap
  have hlast : ((lex.map Prod.fst).map
        (fun term => (term, (List.lookup term lex).getD 0))).Perm lex := by
    rw [hcomp]
  exact hperm2.trans hlast

/-- C5: round-trip of the lexicon artifact: writing a bidirectional
term-to-token-id mapping with `write_lexicon_to_disk` and reading it back
with `load_lexicon_from_disk` yields a mapping with exactly the original
entries — every term keeps its original token id, and no entries are added
or lost. -/
theorem c5_lexicon_roundtrip (lex : Lexicon)
    (hl : (lex.map Prod.fst).Nodup) (hr : (lex.map Prod.snd).Nodup) :
    ∀ t i, (t, i) ∈ load_lexicon_from_disk (write_lexicon_to_disk lex) ↔ (t, i) ∈ lex := by
  have hperm := write_lexicon_perm lex hl
  have h1 : ((write_lexicon_to_disk lex).map Prod.fst).Nodup :=
    ((hperm.map Prod.fst).nodup_iff).mpr hl
  have h2 : ((write_lexicon_to_disk lex).map Prod.snd).Nodup :=
    ((hperm.map Prod.snd).nodup_iff).mpr hr
  have hload : load_lexicon_from_disk (write_lexicon_to_disk lex) =
      write_lexicon_to_disk lex := by
    unfold load_lexicon_from_disk bimapFromList
    have := bimapFromList_of_nodup (write_lexicon_to_disk lex) []
    simpa using this (by simpa using h1) (by simpa using h2)
  intro t i
  rw [hload]
  exact hperm.mem_iff

theorem c5_lexicon_roundtrip_witness :
    ((([("b", 1), ("a", 0)] : Lexicon).map Prod.fst).Nodup ∧
      (([("b", 1), ("a", 0)] : Lexicon).map Prod.snd).Nodup) ∧
    (("a", 0) ∈ load_lexicon_from_disk (write_lexicon_to_disk [("b", 1), ("a", 0)]) ↔
      ("a", 0) ∈ ([("b", 1), ("a", 0)] : Lexicon)) :=
  ⟨⟨by decide, by decide⟩,
    c5_lexicon_roundtrip [("b", 1), ("a", 0)] (by decide) (by decide) "a" 0⟩

/-- Outcome of the file-system operations performed by `write_to_disk`
(src/disk_io.rs lines 80-99): whether `create_dir_all`, `File::create` and
`write_all` succeed. -/
structure FsEnv where
  createDirOk : Bool
  createFileOk : Bool
  writeOk : Bool
deriving Repr, DecidableEq

/-- Embedding of `write_to_disk` together with its file-system effects
(src/disk_io.rs lines 61-100): sort the postings, create the spill directory,
create the spill file and write the serialized bytes.  Each fallible
operation is unwrapped with `expect`, whose panic aborts the whole build; the
panic is modelled as an error outcome that nothing in the build catches, with
the `expect` message. -/
def write_to_disk_fs (env : FsEnv) (postings : PostingsMap) :
    Except String PostingsMap :=
  let sorted_postings := write_to_disk postings
  if !env.createDirOk then .error "Failed to create directory"
  else if !env.createFileOk then .error "Failed to create file"
  else if !env.writeOk then .error "Failed to write to file"
  else .ok sorted_postings

/-- C7: if the spill directory cannot be created or the spill file cannot be
created or written, `write_to_disk` fails with an IO error that is fatal for
the build (the `expect` panic aborts the run); it never completes
successfully on such an environment. -/
theorem c7_write_failure_fatal (env : FsEnv) (postings : PostingsMap)
    (h : env.createDirOk = false ∨ env.createFileOk = false ∨ env.writeOk = false) :
    ∃ msg, write_to_disk_fs env postings = .error msg := by
  obtain ⟨d, f, w⟩ := env
  cases d <;> cases f <;> cases w <;> simp_all [write_to_disk_fs]

theorem c7_write_failure_fatal_witness :
    ((⟨false, true, true⟩ : FsEnv).createDirOk = false ∨
      (⟨false, true, true⟩ : FsEnv).createFileOk = false ∨
      (⟨false, true, true⟩ : FsEnv).writeOk = false) ∧
    ∃ msg, write_to_disk_fs ⟨false, true, true⟩ [(0, [(0, 1)])] = .error msg :=
  ⟨Or.inl rfl, c7_write_failure_fatal ⟨false, true, true⟩ [(0, [(0, 1)])] (Or.inl rfl)⟩

/-- A byte stream as delivered by `file.bytes()` (src/disk_io.rs line 168):
each read yields either a byte or an IO error. -/
abbrev ByteStream := List (Except String Nat)

/-- Model of `file.bytes().filter_map(Result::ok).collect()` (src/disk_io.rs
line 168): failed reads are discarded and the successfully read bytes are
kept. -/
def collectBytes (stream : ByteStream) : List Nat :=
  stream.filterMap fun r => match r with | .ok b => some b | .error _ => none

/-- Environment of `load_lexicon_from_disk`'s fallible operations: the result
of `File::open` (src/disk_io.rs line 167), carrying the byte stream on
success. -/
structure LexEnv where
  openResult : Except String ByteStream

/-- Embedding of `load_lexicon_from_disk` with its file reading
(src/disk_io.rs lines 165-172): `File::open(&path)?` propagates an open
failure to the caller; the file's bytes are collected with
`filter_map(Result::ok)`; `bincode::deserialize(&data).expect(...)` panics
when the collected bytes do not decode (modelled as an error outcome), and
the decoded (term, id) vector is collected into a bimap.  `deser` stands for
the external bincode decoder. -/
def load_lexicon_fs (env : LexEnv) (deser : List Nat → Option Lexicon) :
    Except String Lexicon :=
  match env.openResult with
  | .error e => .error e
  | .ok stream =>
    match deser (collectBytes stream) with
    | none => .error "Failed to deserialize lexicon"
    | some terms_with_ids => .ok (bimapFromList terms_with_ids)

/-- C8 counterexample: a run of `load_lexicon_from_disk` in which a read of
the lexicon file fails, yet the function returns successfully — the read
failure is silently ignored by `filter_map(Result::ok)` rather than
propagated: only the bytes read before the failure are decoded. -/
theorem c8_read_error_swallowed :
    (∃ r ∈ ([.ok 1, .ok 2, .error "read failed"] : ByteStream), ∃ e, r = .error e) ∧
    load_lexicon_fs ⟨.ok [.ok 1, .ok 2, .error "read failed"]⟩
        (fun bs => some [("a", bs.length)]) = .ok [("a", 2)] := by
  constructor
  · exact ⟨.error "read failed", by simp, "read failed", rfl⟩
  · rfl

lemma collectBytes_filter_ok (stream : ByteStream) :
    collectBytes (stream.filter fun r => r.isOk) = collectBytes stream := by
  induction stream with
  | nil => rfl
  | cons r rest ih =>
    cases r with
    | ok b => simp [collectBytes, List.filter, Except.isOk, Except.toBool, List.filterMap] at ih ⊢; exact ih
    | error e => simp [collectBytes, List.filter, Except.isOk, Except.toBool, List.filterMap] at ih ⊢; exact ih

/-- C8 amended: a failure of `File::open` is propagated to the caller as an
error, but read failures hit while collecting the file's bytes are silently
discarded: loading from any byte stream behaves exactly like loading from
that stream with its failed reads removed, so a mid-file read error can at
most surface indirectly as a deserialization failure of the remaining
bytes. -/
theorem c8_open_error_propagated_read_errors_dropped (e : String)
    (stream : ByteStream) (deser : List Nat → Option Lexicon) :
    load_lexicon_fs ⟨.error e⟩ deser = .error e ∧
    load_lexicon_fs ⟨.ok stream⟩ deser =
      load_lexicon_fs ⟨.ok (stream.filter fun r => r.isOk)⟩ deser := by
  refine ⟨rfl, ?_⟩
  simp [load_lexicon_fs, collectBytes_filter_ok]

/-- Two iteration views present the same logical postings map: the same token
ids, and for each token the same inner document→frequency map (its entries up
to iteration order). -/
def sameLogicalMap (r₁ r₂ : PostingsMap) : Prop :=
  (r₁.map Prod.fst).Perm (r₂.map Prod.fst) ∧
  ∀ t ps qs, List.lookup t r₁ = some ps → List.lookup t r₂ = some qs → ps.Perm qs

/-- C6 counterexample: one accumulator state, presented under two iteration
orders of its inner document→frequency hash map (as happens across two runs,
since Rust's `HashMap` iteration order depends on a per-process random
seed), serializes to two different spill byte sequences: `write_to_disk`
sorts only the outer entries by token id and writes each inner map in its
iteration order.  Hence building twice does not, in general, produce
byte-identical postings artifacts. -/
theorem c6_spill_bytes_not_run_deterministic :
    sameLogicalMap [(0, [(0, 1), (1, 2)])] [(0, [(1, 2), (0, 1)])] ∧
    write_to_disk [(0, [(0, 1), (1, 2)])] ≠ write_to_disk [(0, [(1, 2), (0, 1)])] := by
  constructor
  · refine ⟨by decide, ?_⟩
    intro t ps qs h1 h2
    by_cases ht : (t == 0) = true
    · simp only [List.lookup, ht, Option.some.injEq] at h1 h2
      rw [← h1, ← h2]
      decide
    · rw [Bool.not_eq_true] at ht
      simp only [List.lookup, ht] at h1
      cases h1
  · decide

/-- C6 amended: the build is deterministic at the logical level — for two
iteration views of the same accumulator state, the serialized spill files
carry the same ascending token-id sequence and, for each token, the same
postings content up to the inner map's iteration order; byte-identical
artifacts are not guaranteed (see the counterexample). -/
theorem c6_logical_content_deterministic (r₁ r₂ : PostingsMap)
    (hnd : (r₁.map Prod.fst).Nodup) (hsame : sameLogicalMap r₁ r₂) :
    (write_to_disk r₁).map Prod.fst = (write_to_disk r₂).map Prod.fst ∧
    ∀ t ps qs, List.lookup t (write_to_disk r₁) = some ps →
      List.lookup t (write_to_disk r₂) = some qs → ps.Perm qs := by
  have hnd₂ : (r₂.map Prod.fst).Nodup := (hsame.1.nodup_iff).mp hnd
  have hle₁ : ((write_to_disk r₁).map Prod.fst).Sorted (· ≤ ·) := by
    rw [List.Sorted, List.pairwise_map]
    exact write_to_disk_sorted_le r₁
  have hle₂ : ((write_to_disk r₂).map Prod.fst).Sorted (· ≤ ·) := by
    rw [List.Sorted, List.pairwise_map]
    exact write_to_disk_sorted_le r₂
  constructor
  · apply List.eq_of_perm_of_sorted ?_ hle₁ hle₂
    exact (((write_to_disk_perm r₁).map Prod.fst).trans hsame.1).trans
      ((write_to_disk_perm r₂).map Prod.fst).symm
  · intro t ps qs h1 h2
    rw [lookup_perm (write_to_disk_perm r₁)
      (((write_to_disk_perm r₁).map Prod.fst).nodup_iff.mpr hnd) t] at h1
    rw [lookup_perm (write_to_disk_perm r₂)
      (((write_to_disk_perm r₂).map Prod.fst).nodup_iff.mpr hnd₂) t] at h2
    exact hsame.2 t ps qs h1 h2

theorem c6_logical_content_deterministic_witness :
    ((([(5, [(0, 1)])] : PostingsMap).map Prod.fst).Nodup ∧
      sameLogicalMap [(5, [(0, 1)])] [(5, [(0, 1)])]) ∧
    ((write_to_disk [(5, [(0, 1)])]).map Prod.fst =
        (write_to_disk [(5, [(0, 1)])]).map Prod.fst ∧
      ∀ t ps qs, List.lookup t (write_to_disk [(5, [(0, 1)])]) = some ps →
        List.lookup t (write_to_disk [(5, [(0, 1)])]) = some qs → ps.Perm qs) :=
  ⟨⟨by decide,
    ⟨List.Perm.refl _, fun t ps qs h1 h2 => by
      rw [h1] at h2
      exact (Option.some.inj h2) ▸ List.Perm.refl ps⟩⟩,
    c6_logical_content_deterministic [(5, [(0, 1)])] [(5, [(0, 1)])] (by decide)
      ⟨List.Perm.refl _, fun t ps qs h1 h2 => by
        rw [h1] at h2
        exact (Option.some.inj h2) ▸ List.Perm.refl ps⟩⟩

/-- A spill batch in decoded form: the sequence of (token id, postings
sublist) records read back from one spill file, each sublist a list of
(document id, term frequency) pairs. -/
abbrev Batch := List (Nat × List (Nat × Nat))

/-- Tag every record of every batch with its batch (source file) index,
starting from index `i`. -/
def tagBatches (i : Nat) : List Batch → List ((Nat × Nat) × List (Nat × Nat))
  | [] => []
  | b :: bs => b.map (fun e => ((e.1, i), e.2)) ++ tagBatches (i + 1) bs

/-- All records of all batches, keyed by (token id, batch index). -/
def taggedRecords (batches : List Batch) : List ((Nat × Nat) × List (Nat × Nat)) :=
  tagBatches 0 batches

/-- The priority order of the merge engine's min-structure: by token id
first, then by source file index. -/
def recLe (x y : (Nat × Nat) × List (Nat × Nat)) : Prop :=
  x.1.1 < y.1.1 ∨ (x.1.1 = y.1.1 ∧ x.1.2 ≤ y.1.2)

instance : DecidableRel recLe := fun x y => by unfold recLe; infer_instance

instance : IsTotal ((Nat × Nat) × List (Nat × Nat)) recLe :=
  ⟨fun x y => by unfold recLe; omega⟩

instance : IsTrans ((Nat × Nat) × List (Nat × Nat)) recLe :=
  ⟨fun x y z hxy hyz => by unfold recLe at *; omega⟩

/-- Coalesce adjacent records with equal token ids, concatenating their
postings sublists in order. -/
def groupRun : List (Nat × List (Nat × Nat)) → List (Nat × List (Nat × Nat))
  | [] => []
  | (t, ps) :: rest =>
    match groupRun rest with
    | [] => [(t, ps)]
    | (u, qs) :: tail =>
      if t = u then (t, ps ++ qs) :: tail else (t, ps) :: (u, qs) :: tail

/-- Modelled from the spec: `merge_sorted_files` of the missing
`external_sorter.rs` (called by `merge_sorted_postings`, src/disk_io.rs
line 190).  The k-way merge keeps one sequential reader per spill file in a
min-priority structure keyed by (next token id, source file index),
repeatedly pops the minimum, drains all readers tied at the same token id in
increasing file-index order, and writes one record whose postings list is
the concatenation of the tied readers' sublists.  Extensionally, the output
is the multiset of all batches' records arranged by the key
(token id, batch index) — computed here as a stable sort on that key — with
each run of equal token ids coalesced into a single record. -/
def merge_sorted_files (batches : List Batch) : Batch :=
  groupRun ((List.insertionSort recLe (taggedRecords batches)).map fun r => (r.1.1, r.2))

/-- All document ids occurring in a batch. -/
def batchDocIds (b : Batch) : List Nat :=
  (b.map fun e => e.2.map Prod.fst).flatten

/-- Every document id of the first batch is smaller than every document id
of the second — the invariant between an earlier and a later spill batch of
one forward scan over a monotonically-id-increasing document stream. -/
def batchDocsLt (b₁ b₂ : Batch) : Prop :=
  ∀ d₁ ∈ batchDocIds b₁, ∀ d₂ ∈ batchDocIds b₂, d₁ < d₂

/-- Every document id of the first postings sublist is smaller than every
document id of the second. -/
def docsLt (ps qs : List (Nat × Nat)) : Prop :=
  ∀ d₁ ∈ ps.map Prod.fst, ∀ d₂ ∈ qs.map Prod.fst, d₁ < d₂

instance (ps qs : List (Nat × Nat)) : Decidable (docsLt ps qs) := by
  unfold docsLt; infer_instance

instance (b₁ b₂ : Batch) : Decidable (batchDocsLt b₁ b₂) := by
  unfold batchDocsLt; infer_instance

lemma pairwise_trivial {α : Type} (l : List α) : l.Pairwise fun _ _ => True := by
  induction l with
  | nil => exact List.Pairwise.nil
  | cons a rest ih => exact List.Pairwise.cons (fun _ _ => trivial) ih

lemma groupRun_cons (t : Nat) (ps : List (Nat × Nat)) (rest : List (Nat × List (Nat × Nat))) :
    ∃ qs tail, groupRun ((t, ps) :: rest) = (t, qs) :: tail := by
  cases hg : groupRun rest with
  | nil => exact ⟨ps, [], by simp [groupRun, hg]⟩
  | cons x tail =>
    obtain ⟨u, qs⟩ := x
    by_cases ht : t = u
    · exact ⟨ps ++ qs, tail, by simp [groupRun, hg, ht]⟩
    · exact ⟨ps, (u, qs) :: tail, by simp [groupRun, hg, ht]⟩

lemma groupRun_fst_mem : ∀ (l : List (Nat × List (Nat × Nat))) (x : Nat × List (Nat × Nat)),
    x ∈ groupRun l → x.1 ∈ l.map Prod.fst := by
  intro l
  induction l with
  | nil => intro x hx; cases hx
  | cons p rest ih =>
    obtain ⟨t, ps⟩ := p
    intro x hx
    cases hg : groupRun rest with
    | nil =>
      rw [show groupRun ((t, ps) :: rest) = [(t, ps)] from by simp [groupRun, hg]] at hx
      rcases List.mem_singleton.mp hx with rfl
      exact List.mem_cons_self _ _
    | cons y tail =>
      obtain ⟨u, qs⟩ := y
      by_cases ht : t = u
      · rw [show groupRun ((t, ps) :: rest) = (t, ps ++ qs) :: tail from
          by simp [groupRun, hg, ht]] at hx
        rcases List.mem_cons.mp hx with rfl | hx
        · exact List.mem_cons_self _ _
        · exact List.mem_cons_of_mem _ (ih x (hg ▸ List.mem_cons_of_mem _ hx))
      · rw [show groupRun ((t, ps) :: rest) = (t, ps) :: (u, qs) :: tail from
          by simp [groupRun, hg, ht]] at hx
        rcases List.mem_cons.mp hx with rfl | hx
        · exact List.mem_cons_self _ _
        · exact List.mem_cons_of_mem _ (ih x (hg ▸ hx))

lemma groupRun_fst_mem_iff : ∀ (l : List (Nat × List (Nat × Nat))) (t : Nat),
    t ∈ (groupRun l).map Prod.fst ↔ t ∈ l.map Prod.fst := by
  intro l
  induction l with
  | nil => intro t; exact Iff.rfl
  | cons p rest ih =>
    obtain ⟨u, ps⟩ := p
    intro t
    constructor
    · intro ht
      rcases List.mem_map.mp ht with ⟨x, hx, rfl⟩
      exact groupRun_fst_mem _ x hx
    · intro ht
      obtain ⟨qs, tail, hq⟩ := groupRun_cons u ps rest
      rcases List.mem_cons.mp ht with rfl | ht
      · rw [hq]
        exact List.mem_map.mpr ⟨(t, qs), List.mem_cons_self _ _, rfl⟩
      · have hmem : t ∈ (groupRun rest).map Prod.fst := (ih t).mpr ht
        rcases List.mem_map.mp hmem with ⟨x, hx, rfl⟩
        cases hg : groupRun rest with
        | nil => rw [hg] at hx; cases hx
        | cons y tail' =>
          obtain ⟨v, vs⟩ := y
          rw [hg] at hx
          by_cases hu : u = v
          · rw [show groupRun ((u, ps) :: rest) = (u, ps ++ vs) :: tail' from
              by simp [groupRun, hg, hu]]
            rcases List.mem_cons.mp hx with rfl | hx
            · exact List.mem_map.mpr ⟨(u, ps ++ vs), List.mem_cons_self _ _, hu⟩
            · exact List.mem_map.mpr ⟨x, List.mem_cons_of_mem _ hx, rfl⟩
          · rw [show groupRun ((u, ps) :: rest) = (u, ps) :: (v, vs) :: tail' from
              by simp [groupRun, hg, hu]]
            rcases List.mem_cons.mp hx with rfl | hx
            · exact List.mem_map.mpr
                ⟨(v, vs), List.mem_cons_of_mem _ (List.mem_cons_self _ _), rfl⟩
            · exact List.mem_map.mpr
                ⟨x, List.mem_cons_of_mem _ (List.mem_cons_of_mem _ hx), rfl⟩

lemma groupRun_doc_mem : ∀ (l : List (Nat × List (Nat × Nat)))
    (x : Nat × List (Nat × Nat)) (d : Nat),
    x ∈ groupRun l → d ∈ x.2.map Prod.fst →
    ∃ e ∈ l, e.1 = x.1 ∧ d ∈ e.2.map Prod.fst := by
  intro l
  induction l with
  | nil => intro x d hx _; cases hx
  | cons p rest ih =>
    obtain ⟨t, ps⟩ := p
    intro x d hx hd
    cases hg : groupRun rest with
    | nil =>
      rw [show groupRun ((t, ps) :: rest) = [(t, ps)] from by simp [groupRun, hg]] at hx
      rcases List.mem_singleton.mp hx with rfl
      exact ⟨(t, ps), List.mem_cons_self _ _, rfl, hd⟩
    | cons y tail =>
      obtain ⟨u, qs⟩ := y
      by_cases ht : t = u
      · rw [show groupRun ((t, ps) :: rest) = (t, ps ++ qs) :: tail from
          by simp [groupRun, hg, ht]] at hx
        rcases List.mem_cons.mp hx with rfl | hx
        · rw [List.map_append, List.mem_append] at hd
          rcases hd with hd | hd
          · exact ⟨(t, ps), List.mem_cons_self _ _, rfl, hd⟩
          · have := ih (u, qs) d (hg ▸ List.mem_cons_self _ _) hd
            obtain ⟨e, he, he1, he2⟩ := this
            exact ⟨e, List.mem_cons_of_mem _ he, by rw [he1]; exact ht.symm, he2⟩
        · obtain ⟨e, he, he1, he2⟩ := ih x d (hg ▸ List.mem_cons_of_mem _ hx) hd
          exact ⟨e, List.mem_cons_of_mem _ he, he1, he2⟩
      · rw [show groupRun ((t, ps) :: rest) = (t, ps) :: (u, qs) :: tail from
          by simp [groupRun, hg, ht]] at hx
        rcases List.mem_cons.mp hx with rfl | hx
        · exact ⟨(t, ps), List.mem_cons_self _ _, rfl, hd⟩
        · obtain ⟨e, he, he1, he2⟩ := ih x d (hg ▸ hx) hd
          exact ⟨e, List.mem_cons_of_mem _ he, he1, he2⟩

lemma groupRun_sorted_fst : ∀ (l : List (Nat × List (Nat × Nat))),
    l.Pairwise (fun a b => a.1 ≤ b.1) →
    ((groupRun l).map Prod.fst).Pairwise (· < ·) := by
  intro l
  induction l with
  | nil => intro _; exact List.Pairwise.nil
  | cons p rest ih =>
    obtain ⟨t, ps⟩ := p
    intro hs
    have hs' := (List.pairwise_cons.mp hs)
    have ihg := ih hs'.2
    cases hg : groupRun rest with
    | nil =>
      rw [show groupRun ((t, ps) :: rest) = [(t, ps)] from by simp [groupRun, hg]]
      simp
    | cons y tail =>
      obtain ⟨u, qs⟩ := y
      rw [hg] at ihg
      have hu : u ∈ rest.map Prod.fst := groupRun_fst_mem rest (u, qs) (hg ▸ List.mem_cons_self _ _)
      have htu : t ≤ u := by
        rcases List.mem_map.mp hu with ⟨e, he, rfl⟩
        exact hs'.1 e he
      by_cases ht : t = u
      · rw [show groupRun ((t, ps) :: rest) = (t, ps ++ qs) :: tail from
          by simp [groupRun, hg, ht]]
        rw [List.map_cons] at ihg ⊢
        rw [List.pairwise_cons] at ihg ⊢
        exact ⟨fun b hb => ht ▸ ihg.1 b hb, ihg.2⟩
      · have htu' : t < u := lt_of_le_of_ne htu ht
        rw [show groupRun ((t, ps) :: rest) = (t, ps) :: (u, qs) :: tail from
          by simp [groupRun, hg, ht]]
        rw [List.map_cons, List.pairwise_cons]
        refine ⟨?_, ihg⟩
        intro b hb
        rw [List.map_cons] at hb ihg
        rcases List.mem_cons.mp hb with rfl | hb
        · exact htu'
        · exact lt_trans htu' ((List.pairwise_cons.mp ihg).1 b hb)

lemma groupRun_docs_sorted : ∀ (l : List (Nat × List (Nat × Nat))),
    l.Pairwise (fun a b => a.1 = b.1 → docsLt a.2 b.2) →
    (∀ e ∈ l, (e.2.map Prod.fst).Sorted (· < ·)) →
    ∀ x ∈ groupRun l, (x.2.map Prod.fst).Sorted (· < ·) := by
  intro l
  induction l with
  | nil => intro _ _ x hx; cases hx
  | cons p rest ih =>
    obtain ⟨t, ps⟩ := p
    intro hd he
    have hd' := List.pairwise_cons.mp hd
    have ihg := ih hd'.2 (fun e hh => he e (List.mem_cons_of_mem _ hh))
    intro x hx
    cases hg : groupRun rest with
    | nil =>
      rw [show groupRun ((t, ps) :: rest) = [(t, ps)] from by simp [groupRun, hg]] at hx
      rcases List.mem_singleton.mp hx with rfl
      exact he _ (List.mem_cons_self _ _)
    | cons y tail =>
      obtain ⟨u, qs⟩ := y
      by_cases ht : t = u
      · rw [show groupRun ((t, ps) :: rest) = (t, ps ++ qs) :: tail from
          by simp [groupRun, hg, ht]] at hx
        rcases List.mem_cons.mp hx with rfl | hx
        · have hps : (ps.map Prod.fst).Sorted (· < ·) := he _ (List.mem_cons_self _ _)
          have hqs : (qs.map Prod.fst).Sorted (· < ·) :=
            ihg (u, qs) (hg ▸ List.mem_cons_self _ _)
          rw [List.map_append]
          rw [List.Sorted, List.pairwise_append]
          refine ⟨hps, hqs, ?_⟩
          intro d₁ hd₁ d₂ hd₂
          obtain ⟨e, hemem, hefst, hedoc⟩ :=
            groupRun_doc_mem rest (u, qs) d₂ (hg ▸ List.mem_cons_self _ _) hd₂
          exact hd'.1 e hemem (by rw [hefst]; exact ht) d₁ hd₁ d₂ hedoc
        · exact ihg x (hg ▸ List.mem_cons_of_mem _ hx)
      · rw [show groupRun ((t, ps) :: rest) = (t, ps) :: (u, qs) :: tail from
          by simp [groupRun, hg, ht]] at hx
        rcases List.mem_cons.mp hx with rfl | hx
        · exact he _ (List.mem_cons_self _ _)
        · exact ihg x (hg ▸ hx)

lemma tagBatches_snd_ge : ∀ (bs : List Batch) (i : Nat) (r : (Nat × Nat) × List (Nat × Nat)),
    r ∈ tagBatches i bs → i ≤ r.1.2 := by
  intro bs
  induction bs with
  | nil => intro i r hr; cases hr
  | cons b rest ih =>
    intro i r hr
    rw [tagBatches, List.mem_append] at hr
    rcases hr with hr | hr
    · rcases List.mem_map.mp hr with ⟨e, _, rfl⟩
      exact le_refl i
    · exact le_trans (Nat.le_succ i) (ih (i + 1) r hr)

lemma tagBatches_mem_batch : ∀ (bs : List Batch) (i : Nat) (r : (Nat × Nat) × List (Nat × Nat)),
    r ∈ tagBatches i bs → ∃ b ∈ bs, (r.1.1, r.2) ∈ b := by
  intro bs
  induction bs with
  | nil => intro i r hr; cases hr
  | cons b rest ih =>
    intro i r hr
    rw [tagBatches, List.mem_append] at hr
    rcases hr with hr | hr
    · rcases List.mem_map.mp hr with ⟨e, he, rfl⟩
      exact ⟨b, List.mem_cons_self _ _, by rw [Prod.mk.eta]; exact he⟩
    · obtain ⟨b', hb', hrb⟩ := ih (i + 1) r hr
      exact ⟨b', List.mem_cons_of_mem _ hb', hrb⟩

lemma tagBatches_mem_of : ∀ (bs : List Batch) (i : Nat) (b : Batch), b ∈ bs →
    ∀ e ∈ b, ∃ r ∈ tagBatches i bs, r.1.1 = e.1 ∧ r.2 = e.2 := by
  intro bs
  induction bs with
  | nil => intro i b hb; cases hb
  | cons b₀ rest ih =>
    intro i b hb e he
    rcases List.mem_cons.mp hb with rfl | hb
    · refine ⟨((e.1, i), e.2), ?_, rfl, rfl⟩
      rw [tagBatches, List.mem_append]
      exact Or.inl (List.mem_map.mpr ⟨e, he, rfl⟩)
    · obtain ⟨r, hr, hr1, hr2⟩ := ih (i + 1) b hb e he
      refine ⟨r, ?_, hr1, hr2⟩
      rw [tagBatches, List.mem_append]
      exact Or.inr hr

lemma tagBatches_keys_nodup : ∀ (bs : List Batch) (i : Nat),
    (∀ b ∈ bs, (b.map Prod.fst).Nodup) →
    ((tagBatches i bs).map Prod.fst).Nodup := by
  intro bs
  induction bs with
  | nil => intro i _; exact List.nodup_nil
  | cons b rest ih =>
    intro i hb
    rw [tagBatches, List.map_append, List.nodup_append]
    refine ⟨?_, ih (i + 1) (fun b' hb' => hb b' (List.mem_cons_of_mem _ hb')), ?_⟩
    · rw [List.map_map]
      have hbn : (b.map Prod.fst).Nodup := hb b (List.mem_cons_self _ _)
      have hcast : b.map (Prod.fst ∘ fun e => ((e.1, i), e.2)) =
          (b.map Prod.fst).map (fun t => (t, i)) := by
        rw [List.map_map]
        exact List.map_congr_left fun e he => rfl
      rw [hcast]
      exact hbn.map fun a c h => congrArg Prod.fst h
    · intro k hk1 hk2
      rcases List.mem_map.mp hk1 with ⟨x, hx, rfl⟩
      rcases List.mem_map.mp hx with ⟨e, _, rfl⟩
      rcases List.mem_map.mp hk2 with ⟨r, hr, hkr⟩
      have hge := tagBatches_snd_ge rest (i + 1) r hr
      rw [hkr] at hge
      have hei : ((e.1, i), e.2).1.2 = i := rfl
      omega

/-- Between two tagged records, the one with the smaller batch index has all
the smaller document ids (symmetric formulation). -/
def recBatchOrdered (r s : (Nat × Nat) × List (Nat × Nat)) : Prop :=
  (r.1.2 < s.1.2 → docsLt r.2 s.2) ∧ (s.1.2 < r.1.2 → docsLt s.2 r.2)

lemma recBatchOrdered_symm : Symmetric recBatchOrdered := fun _ _ h => ⟨h.2, h.1⟩

lemma mem_batchDocIds {b : Batch} {e : Nat × List (Nat × Nat)} (he : e ∈ b) {d : Nat}
    (hd : d ∈ e.2.map Prod.fst) : d ∈ batchDocIds b := by
  rw [batchDocIds, List.mem_flatten]
  exact ⟨e.2.map Prod.fst, List.mem_map.mpr ⟨e, he, rfl⟩, hd⟩

lemma tagBatches_batchOrdered : ∀ (bs : List Batch) (i : Nat),
    bs.Pairwise batchDocsLt →
    (tagBatches i bs).Pairwise recBatchOrdered := by
  intro bs
  induction bs with
  | nil => intro i _; exact List.Pairwise.nil
  | cons b rest ih =>
    intro i hp
    have hp' := List.pairwise_cons.mp hp
    rw [tagBatches, List.pairwise_append]
    refine ⟨?_, ih (i + 1) hp'.2, ?_⟩
    · rw [List.pairwise_map]
      exact (pairwise_trivial b).imp
        (fun _ => ⟨fun h => absurd h (lt_irrefl i), fun h => absurd h (lt_irrefl i)⟩)
    · intro r hr s hs
      rcases List.mem_map.mp hr with ⟨e, he, rfl⟩
      obtain ⟨b', hb', hsb⟩ := tagBatches_mem_batch rest (i + 1) s hs
      have hsge : i + 1 ≤ s.1.2 := tagBatches_snd_ge rest (i + 1) s hs
      constructor
      · intro _ d₁ hd₁ d₂ hd₂
        exact hp'.1 b' hb' d₁ (mem_batchDocIds he hd₁) d₂ (mem_batchDocIds hsb hd₂)
      · intro hlt
        have hei : ((e.1, i), e.2).1.2 = i := rfl
        omega

/-- C3: merging the spill batches produced from a monotonically-id-increasing
document stream yields a stream sorted strictly ascending by token id, in
which a token id appears exactly once precisely when it occurs in some batch,
and for every output record the combined postings list is strictly ascending
in document id (hence with no duplicate document ids).  The hypotheses are
the invariants of the spill batches: each batch is strictly token-sorted
(C4), each sublist is strictly document-sorted, and the batches' document-id
ranges are pairwise increasing. -/
theorem c3_merge_unique_sorted (batches : List Batch)
    (h1 : ∀ b ∈ batches, (b.map Prod.fst).Sorted (· < ·))
    (h2 : ∀ b ∈ batches, ∀ e ∈ b, (e.2.map Prod.fst).Sorted (· < ·))
    (h3 : batches.Pairwise batchDocsLt) :
    ((merge_sorted_files batches).map Prod.fst).Sorted (· < ·) ∧
    (∀ t, t ∈ (merge_sorted_files batches).map Prod.fst ↔
      ∃ b ∈ batches, t ∈ b.map Prod.fst) ∧
    ∀ x ∈ merge_sorted_files batches, (x.2.map Prod.fst).Sorted (· < ·) := by
  have hperm : (List.insertionSort recLe (taggedRecords batches)).Perm
      (taggedRecords batches) := List.perm_insertionSort recLe (taggedRecords batches)
  have hsrt : List.Sorted recLe (List.insertionSort recLe (taggedRecords batches)) :=
    List.sorted_insertionSort recLe (taggedRecords batches)
  have hnkeys : ((taggedRecords batches).map Prod.fst).Nodup :=
    tagBatches_keys_nodup batches 0 (fun b hb => (h1 b hb).imp ne_of_lt)
  have hskeys : ((List.insertionSort recLe (taggedRecords batches)).map Prod.fst).Nodup :=
    ((hperm.map Prod.fst).nodup_iff).mpr hnkeys
  have hkey_ne : (List.insertionSort recLe (taggedRecords batches)).Pairwise
      (fun r s => r.1 ≠ s.1) := List.pairwise_map.mp hskeys
  have hbo : (List.insertionSort recLe (taggedRecords batches)).Pairwise recBatchOrdered :=
    (hperm.pairwise_iff fun h => recBatchOrdered_symm h).mpr (tagBatches_batchOrdered batches 0 h3)
  have hmerge : merge_sorted_files batches =
      groupRun ((List.insertionSort recLe (taggedRecords batches)).map
        fun r => (r.1.1, r.2)) := rfl
  have hHS : ((List.insertionSort recLe (taggedRecords batches)).map
      fun r => (r.1.1, r.2)).Pairwise (fun a b => a.1 ≤ b.1) := by
    rw [List.pairwise_map]
    refine hsrt.imp fun h => ?_
    rcases h with h | ⟨h, _⟩
    · exact le_of_lt h
    · exact le_of_eq h
  have hHD : ((List.insertionSort recLe (taggedRecords batches)).map
      fun r => (r.1.1, r.2)).Pairwise (fun a b => a.1 = b.1 → docsLt a.2 b.2) := by
    rw [List.pairwise_map]
    have hcomb := (hsrt.and hkey_ne).and hbo
    refine hcomb.imp fun {r s} h heq => ?_
    rcases h with ⟨⟨hle, hne⟩, hord⟩
    have heq' : r.1.1 = s.1.1 := heq
    refine hord.1 ?_
    rcases hle with h' | ⟨h', h''⟩
    · exact absurd heq' (ne_of_lt h')
    · rcases Nat.lt_or_ge r.1.2 s.1.2 with hlt | hge
      · exact hlt
      · exact absurd (Prod.ext_iff.mpr ⟨heq', le_antisymm h'' hge⟩) hne
  have hHE : ∀ e ∈ (List.insertionSort recLe (taggedRecords batches)).map
      fun r => (r.1.1, r.2), (e.2.map Prod.fst).Sorted (· < ·) := by
    intro e hev
    rcases List.mem_map.mp hev with ⟨r, hr, rfl⟩
    obtain ⟨b, hb, hrb⟩ := tagBatches_mem_batch batches 0 r (hperm.mem_iff.mp hr)
    exact h2 b hb _ hrb
  refine ⟨?_, ?_, ?_⟩
  · rw [hmerge]
    exact groupRun_sorted_fst _ hHS
  · intro t
    rw [hmerge, groupRun_fst_mem_iff]
    constructor
    · intro ht
      rcases List.mem_map.mp ht with ⟨e, he, rfl⟩
      rcases List.mem_map.mp he with ⟨r, hr, rfl⟩
      obtain ⟨b, hb, hrb⟩ := tagBatches_mem_batch batches 0 r (hperm.mem_iff.mp hr)
      exact ⟨b, hb, List.mem_map.mpr ⟨(r.1.1, r.2), hrb, rfl⟩⟩
    · rintro ⟨b, hb, htb⟩
      rcases List.mem_map.mp htb with ⟨e, he, rfl⟩
      obtain ⟨r, hr, hr1, _⟩ := tagBatches_mem_of batches 0 b hb e he
      refine List.mem_map.mpr ⟨(r.1.1, r.2), ?_, hr1⟩
      exact List.mem_map.mpr ⟨r, hperm.mem_iff.mpr hr, rfl⟩
  · rw [hmerge]
    exact groupRun_docs_sorted _ hHD hHE

theorem c3_merge_unique_sorted_witness :
    ((∀ b ∈ [[(1, [(0, 2)]), (2, [(0, 1)])], [(1, [(1, 3)])]], (List.map Prod.fst b).Sorted (· < ·)) ∧
      (∀ b ∈ [[(1, [(0, 2)]), (2, [(0, 1)])], [(1, [(1, 3)])]], ∀ e ∈ b,
        (e.2.map Prod.fst).Sorted (· < ·)) ∧
      ([[(1, [(0, 2)]), (2, [(0, 1)])], [(1, [(1, 3)])]] : List Batch).Pairwise batchDocsLt) ∧
    (((merge_sorted_files [[(1, [(0, 2)]), (2, [(0, 1)])], [(1, [(1, 3)])]]).map
        Prod.fst).Sorted (· < ·) ∧
      (∀ t, t ∈ (merge_sorted_files [[(1, [(0, 2)]), (2, [(0, 1)])], [(1, [(1, 3)])]]).map
          Prod.fst ↔
        ∃ b ∈ [[(1, [(0, 2)]), (2, [(0, 1)])], [(1, [(1, 3)])]], t ∈ b.map Prod.fst) ∧
      ∀ x ∈ merge_sorted_files [[(1, [(0, 2)]), (2, [(0, 1)])], [(1, [(1, 3)])]],
        (x.2.map Prod.fst).Sorted (· < ·)) :=
  ⟨⟨by decide, by decide, by decide⟩,
    c3_merge_unique_sorted [[(1, [(0, 2)]), (2, [(0, 1)])], [(1, [(1, 3)])]]
      (by decide) (by decide) (by decide)⟩

/-- Modelled from the spec: the query processor's loaded index
(`TermQueryProcessor` of the missing `term_query_processor.rs`, constructed
in src/main.rs lines 52-53): the lexicon artifact (term → token id) together
with the directory and postings blob, the latter two modelled as an
association from token id to the postings list decoded from the token's byte
range. -/
structure QueryIndex where
  lexicon : Lexicon
  directory : List (Nat × List (Nat × Nat))

/-- Modelled from the spec: `lookup_term` — look the term up in the lexicon
by exact match; `none` is the non-fatal UnknownTermError. -/
def lookup_term (idx : QueryIndex) (term : String) : Option Nat :=
  List.lookup term idx.lexicon

/-- Modelled from the spec: `postings_for_term` — resolve the term to its
token id, then through the directory to the byte range, and decode that
range into the token's postings list, sorted by document id; `none` when the
term is unknown. -/
def postings_for_term (idx : QueryIndex) (term : String) : Option (List (Nat × Nat)) :=
  match lookup_term idx term with
  | none => none
  | some tid => some ((List.lookup tid idx.directory).getD [])

/-- Merge-join intersection of two ascending document-id lists: advance the
list holding the smaller current document id; a document id survives only if
it is at the front of both. -/
def intersectSorted : List Nat → List Nat → List Nat
  | [], _ => []
  | _ :: _, [] => []
  | a :: as, b :: bs =>
    if a < b then intersectSorted as (b :: bs)
    else if b < a then intersectSorted (a :: as) bs
    else a :: intersectSorted as bs
termination_by l₁ l₂ => l₁.length + l₂.length

/-- Modelled from the spec: splitting the query text into whitespace-delimited
terms. -/
def splitWS (s : String) : List String :=
  let groups := s.toList.foldr
    (fun c acc =>
      if c = ' ' then [] :: acc
      else
        match acc with
        | [] => [[c]]
        | g :: gs => (c :: g) :: gs) []
  (groups.filter fun g => !g.isEmpty).map fun g => String.mk g

/-- Resolve every query term's postings list, `none` as soon as any term is
unknown. -/
def resolveAll (idx : QueryIndex) : List String → Option (List (List (Nat × Nat)))
  | [] => some []
  | t :: ts =>
    match postings_for_term idx t, resolveAll idx ts with
    | some ps, some rest => some (ps :: rest)
    | _, _ => none

/-- Modelled from the spec: `conjunctive_query` (src/main.rs line 63 calls
it; the implementation lives in the missing `term_query_processor.rs`) —
split the query text into whitespace-delimited terms, resolve each term's
postings via `postings_for_term`, short-circuit to the empty result set as
soon as any term is unknown, and otherwise merge-intersect the ascending
document-id lists; the result is the ascending sequence of document ids
present in every term's postings list. -/
def conjunctive_query (idx : QueryIndex) (text : String) : List Nat :=
  match resolveAll idx (splitWS text) with
  | none => []
  | some postingsLists =>
    match postingsLists.map fun ps => ps.map Prod.fst with
    | [] => []
    | docs :: rest => rest.foldl intersectSorted docs

lemma intersectSorted_mem (l₁ l₂ : List Nat) (h₁ : l₁.Sorted (· < ·))
    (h₂ : l₂.Sorted (· < ·)) :
    ∀ d, d ∈ intersectSorted l₁ l₂ ↔ d ∈ l₁ ∧ d ∈ l₂ := by
  induction l₁, l₂ using intersectSorted.induct with
  | case1 l₂ => intro d; simp [intersectSorted]
  | case2 a as => intro d; simp [intersectSorted]
  | case3 a as b bs hab ih =>
    intro d
    rw [show intersectSorted (a :: as) (b :: bs) = intersectSorted as (b :: bs) from
      by simp [intersectSorted, hab]]
    rw [ih (List.sorted_cons.mp h₁).2 h₂ d]
    constructor
    · rintro ⟨hd₁, hd₂⟩
      exact ⟨List.mem_cons_of_mem _ hd₁, hd₂⟩
    · rintro ⟨hd₁, hd₂⟩
      rcases List.mem_cons.mp hd₁ with rfl | hd₁
      · exfalso
        rcases List.mem_cons.mp hd₂ with rfl | hd₂
        · exact lt_irrefl d hab
        · exact lt_irrefl d (lt_trans hab ((List.sorted_cons.mp h₂).1 d hd₂))
      · exact ⟨hd₁, hd₂⟩
  | case4 a as b bs hab hba ih =>
    intro d
    rw [show intersectSorted (a :: as) (b :: bs) = intersectSorted (a :: as) bs from
      by simp [intersectSorted, hab, hba]]
    rw [ih h₁ (List.sorted_cons.mp h₂).2 d]
    constructor
    · rintro ⟨hd₁, hd₂⟩
      exact ⟨hd₁, List.mem_cons_of_mem _ hd₂⟩
    · rintro ⟨hd₁, hd₂⟩
      rcases List.mem_cons.mp hd₂ with rfl | hd₂
      · exfalso
        rcases List.mem_cons.mp hd₁ with rfl | hd₁
        · exact lt_irrefl d hba
        · exact lt_irrefl d (lt_trans hba ((List.sorted_cons.mp h₁).1 d hd₁))
      · exact ⟨hd₁, hd₂⟩
  | case5 a as b bs hab hba ih =>
    intro d
    have hba' : b = a := le_antisymm (Nat.not_lt.mp hab) (Nat.not_lt.mp hba)
    rw [show intersectSorted (a :: as) (b :: bs) = a :: intersectSorted as bs from
      by simp [intersectSorted, hab, hba]]
    rw [List.mem_cons, ih (List.sorted_cons.mp h₁).2 (List.sorted_cons.mp h₂).2 d, hba']
    constructor
    · rintro (rfl | ⟨hd₁, hd₂⟩)
      · exact ⟨List.mem_cons_self _ _, List.mem_cons_self _ _⟩
      · exact ⟨List.mem_cons_of_mem _ hd₁, List.mem_cons_of_mem _ hd₂⟩
    · rintro ⟨hd₁, hd₂⟩
      rcases List.mem_cons.mp hd₁ with h1 | h1
      · exact Or.inl h1
      · rcases List.mem_cons.mp hd₂ with h2 | h2
        · exact Or.inl h2
        · exact Or.inr ⟨h1, h2⟩

lemma postings_for_term_sorted (idx : QueryIndex) (term : String)
    (hdir : ∀ e ∈ idx.directory, (e.2.map Prod.fst).Sorted (· < ·))
    {ps : List (Nat × Nat)} (h : postings_for_term idx term = some ps) :
    (ps.map Prod.fst).Sorted (· < ·) := by
  unfold postings_for_term at h
  cases hl : lookup_term idx term with
  | none => rw [hl] at h; cases h
  | some tid =>
    rw [hl] at h
    cases h
    cases hd : List.lookup tid idx.directory with
    | none => exact List.sorted_nil
    | some l => exact hdir (tid, l) (mem_of_lookup_eq_some hd)

/-- C2: for two terms, the result set of `conjunctive_query "t1 t2"` equals
the set intersection of the document ids of `postings_for_term t1` and of
`postings_for_term t2`; and whenever either term is absent from the lexicon
the result is the empty list rather than an error. -/
theorem c2_conjunctive_query_intersection (idx : QueryIndex) (t₁ t₂ : String)
    (hsplit : splitWS (t₁ ++ " " ++ t₂) = [t₁, t₂])
    (hdir : ∀ e ∈ idx.directory, (e.2.map Prod.fst).Sorted (· < ·)) :
    (∀ d, d ∈ conjunctive_query idx (t₁ ++ " " ++ t₂) ↔
      ((∃ ps, postings_for_term idx t₁ = some ps ∧ d ∈ ps.map Prod.fst) ∧
       (∃ qs, postings_for_term idx t₂ = some qs ∧ d ∈ qs.map Prod.fst))) ∧
    ((lookup_term idx t₁ = none ∨ lookup_term idx t₂ = none) →
      conjunctive_query idx (t₁ ++ " " ++ t₂) = []) := by
  have hlp : ∀ t, lookup_term idx t = none → postings_for_term idx t = none := by
    intro t h
    unfold postings_for_term
    rw [h]
  cases h₁ : postings_for_term idx t₁ with
  | none =>
    have hq : conjunctive_query idx (t₁ ++ " " ++ t₂) = [] := by
      unfold conjunctive_query
      rw [hsplit]
      simp [resolveAll, h₁]
    constructor
    · intro d
      rw [hq]
      simp [h₁]
    · intro _; exact hq
  | some ps =>
    cases h₂ : postings_for_term idx t₂ with
    | none =>
      have hq : conjunctive_query idx (t₁ ++ " " ++ t₂) = [] := by
        unfold conjunctive_query
        rw [hsplit]
        simp [resolveAll, h₁, h₂]
      constructor
      · intro d
        rw [hq]
        simp [h₂]
      · intro _; exact hq
    | some qs =>
      constructor
      · intro d
        have hq : conjunctive_query idx (t₁ ++ " " ++ t₂) =
            intersectSorted (ps.map Prod.fst) (qs.map Prod.fst) := by
          unfold conjunctive_query
          rw [hsplit]
          simp [resolveAll, h₁, h₂, List.foldl]
        rw [hq, intersectSorted_mem (ps.map Prod.fst) (qs.map Prod.fst)
          (postings_for_term_sorted idx t₁ hdir h₁)
          (postings_for_term_sorted idx t₂ hdir h₂) d]
        constructor
        · rintro ⟨hd₁, hd₂⟩
          exact ⟨⟨ps, rfl, hd₁⟩, ⟨qs, rfl, hd₂⟩⟩
        · rintro ⟨⟨ps', hps', hd₁⟩, ⟨qs', hqs', hd₂⟩⟩
          cases Option.some.inj hps'
          cases Option.some.inj hqs'
          exact ⟨hd₁, hd₂⟩
      · intro h
        rcases h with h | h
        · rw [hlp t₁ h] at h₁; cases h₁
        · rw [hlp t₂ h] at h₂; cases h₂

theorem c2_conjunctive_query_intersection_witness :
    (splitWS ("developed" ++ " " ++ "cool") = ["developed", "cool"] ∧
      ∀ e ∈ (QueryIndex.mk [("developed", 0), ("cool", 1)]
          [(0, [(1, 1), (3, 1), (5, 1)]), (1, [(3, 2), (5, 1), (9, 1)])]).directory,
        (e.2.map Prod.fst).Sorted (· < ·)) ∧
    ((∀ d, d ∈ conjunctive_query
        (QueryIndex.mk [("developed", 0), ("cool", 1)]
          [(0, [(1, 1), (3, 1), (5, 1)]), (1, [(3, 2), (5, 1), (9, 1)])])
        ("developed" ++ " " ++ "cool") ↔
      ((∃ ps, postings_for_term
          (QueryIndex.mk [("developed", 0), ("cool", 1)]
            [(0, [(1, 1), (3, 1), (5, 1)]), (1, [(3, 2), (5, 1), (9, 1)])])
          "developed" = some ps ∧ d ∈ ps.map Prod.fst) ∧
       (∃ qs, postings_for_term
          (QueryIndex.mk [("developed", 0), ("cool", 1)]
            [(0, [(1, 1), (3, 1), (5, 1)]), (1, [(3, 2), (5, 1), (9, 1)])])
          "cool" = some qs ∧ d ∈ qs.map Prod.fst))) ∧
    ((lookup_term
        (QueryIndex.mk [("developed", 0), ("cool", 1)]
          [(0, [(1, 1), (3, 1), (5, 1)]), (1, [(3, 2), (5, 1), (9, 1)])])
        "developed" = none ∨
      lookup_term
        (QueryIndex.mk [("developed", 0), ("cool", 1)]
          [(0, [(1, 1), (3, 1), (5, 1)]), (1, [(3, 2), (5, 1), (9, 1)])])
        "cool" = none) →
      conjunctive_query
        (QueryIndex.mk [("developed", 0), ("cool", 1)]
          [(0, [(1, 1), (3, 1), (5, 1)]), (1, [(3, 2), (5, 1), (9, 1)])])
        ("developed" ++ " " ++ "cool") = [])) :=
  ⟨⟨by decide, by decide⟩,
    c2_conjunctive_query_intersection
      (QueryIndex.mk [("developed", 0), ("cool", 1)]
        [(0, [(1, 1), (3, 1), (5, 1)]), (1, [(3, 2), (5, 1), (9, 1)])])
      "developed" "cool" (by decide) (by decide)⟩

/-- Line stream of three well-formed documents, each terminated by a line
containing "</DOC>". -/
def threeDocLines : List String :=
  ["<DOC>", "alpha", "</DOC>", "<DOC>", "beta", "</DOC>", "<DOC>", "gamma", "</DOC>"]

/-- C1: evaluation of the embedded `process_gzip_file` at the failing input: a
corpus of 3 documents (each terminated by a "</DOC>" line) with batch
threshold 2 produces exactly ONE spill file, covering documents 1 and 2, while
document 3's postings stay in memory and are never spilled — because the
epilogue of `process_gzip_file` dumps the final partial batch only when
`current_doc` is non-empty, i.e. only when the last document is unterminated.
The claimed behaviour (2 spill files, of 2 and 1 documents) does not occur. -/
theorem c1_final_partial_batch_lost :
    (process_gzip_file 2 false 0 threeDocLines).docCount = 3 ∧
    (process_gzip_file 2 false 0 threeDocLines).spills =
      [[joinLines ["<DOC>", "alpha", "</DOC>"], joinLines ["<DOC>", "beta", "</DOC>"]]] ∧
    (process_gzip_file 2 false 0 threeDocLines).pending =
      [joinLines ["<DOC>", "gamma", "</DOC>"]] := by
  decide
